import Mathlib

/-!
Shallow embedding of the `zook` repository (finite-field and elliptic-curve
arithmetic) and verification of its specification claims.

Source files embedded:
- `src/ff/mod.rs`: `FieldElement<P>` (a `u32` value), the modular arithmetic
  helpers `modulus_add`, `modulus_sub`, `modulus_mul`, `modulus_div`,
  `modulus_exp`, `additive_inverse`, `multiplicative_inverse`, and the
  operator impls `Add`, `Sub`, `Mul`, `Div`, `Neg`, plus `new`, `val`, `pow`.
- `src/ec/mod.rs`: `CurvePoint<A, B, P>` (`Zero` or `Point { x, y }`) with the
  `Add` and `Sub` impls.

Machine integers are modeled as `Nat` (`u32` values) and `Int` (the `i64`
Bezout coefficients in `multiplicative_inverse`); where the source performs
fixed-width arithmetic whose overflow behaviour matters to a claim, the wrap
at `2 ^ 64` and the `u32::try_from` range check are modeled explicitly
(`modulus_add_checked`, `modulus_mul_checked`).  Rust panics are modeled by
the `RustVal.panicked` constructor carrying a `PanicReason`.
-/

/-- Reasons the Rust code can panic; each constructor corresponds to one
`panic!`, `expect` or `unwrap` site in the source (the source message is noted
in the comment). -/
inductive PanicReason where
  /-- `FieldElement::new`: panic message is that a `FieldElement` cannot have
  0 as a modulo. -/
  | zeroModulus
  /-- `impl Div`: `NonZeroU32::new(rhs.val).expect("division by 0")`. -/
  | divisionByZero
  /-- `impl Div`: `panic!("gcd(a,n) != 1")` on `Err(NoMultiplicativeInverse)`. -/
  | noInverseGcd
  /-- `multiplicative_inverse`: `cur_n % cur_a` with `cur_a == 0` aborts
  (remainder by zero), reachable only when `a % n == 0`. -/
  | remainderByZero
  /-- `multiplicative_inverse`: the final
  `NonZeroU32::new(..).expect("multiplicative_inverse returned 0")`. -/
  | inverseReturnedZero
  /-- `modulus_add`: `u32::try_from(..).expect("unexpected overflow in modulus
  addition")`. -/
  | overflowAdd
  /-- `modulus_mul`: `u32::try_from(..).expect("unexpected overflow in modulus
  multiplication")`. -/
  | overflowMul
deriving DecidableEq, Repr

/-- Result of a Rust computation whose only failure mode is a panic. -/
inductive RustVal (α : Type) where
  | ok : α → RustVal α
  | panicked : PanicReason → RustVal α
deriving DecidableEq, Repr

/-- Sequencing of possibly-panicking Rust computations (a panic propagates). -/
def RustVal.bind {α β : Type} : RustVal α → (α → RustVal β) → RustVal β
  | RustVal.ok a, f => f a
  | RustVal.panicked r, _ => RustVal.panicked r

/-- `enum ModularArithmeticError` from `src/ff/mod.rs`. -/
inductive ModularArithmeticError where
  | NoMultiplicativeInverse
deriving DecidableEq, Repr

/-- `struct FieldElement<const P: u32> { val: u32 }` from `src/ff/mod.rs`.
The modulus is a type-level constant in the source; here it is a `Nat`
parameter of the structure.  Derived `PartialEq`/`Eq` compare `val`. -/
structure FieldElement (P : Nat) where
  val : Nat
deriving DecidableEq, Repr

/-- `fn modulus_add(a: u32, b: u32, n: NonZeroU32) -> u32`:
`(u64::from(a) + u64::from(b)).rem_euclid(u64::from(n.get()))` followed by
`u32::try_from(..)`.  For `u32` inputs the `u64` sum is exact and the result
is `< n`, so the checked conversion never fails (proved for the claim about
overflow safety below); the unchecked `Nat` form is therefore faithful. -/
def modulus_add (a b n : Nat) : Nat :=
  (a + b) % n

/-- `fn additive_inverse(a: u32, n: NonZeroU32) -> u32`:
`n.get() - a.rem_euclid(n.get())`. -/
def additive_inverse (a n : Nat) : Nat :=
  n - a % n

/-- `fn modulus_sub(a: u32, b: u32, n: NonZeroU32) -> u32`: if `a > b` then
`(a - b).rem_euclid(n.get())` else `modulus_add(a, additive_inverse(b, n), n)`. -/
def modulus_sub (a b n : Nat) : Nat :=
  if a > b then (a - b) % n
  else modulus_add a (additive_inverse b n) n

/-- `fn modulus_mul(a: u32, b: u32, n: NonZeroU32) -> u32`: the `u64` product
reduced mod `n`; as for `modulus_add`, the conversion back to `u32` never
fails for `u32` inputs. -/
def modulus_mul (a b n : Nat) : Nat :=
  (a * b) % n

/-- The `for i in 0..bits` loop body of `fn modulus_exp`: state is
`(acm, cur)`, `i` is the current bit index and the last argument counts the
remaining iterations.  Each iteration first doubles `cur` and then, if bit `i`
of `b` is set, adds the (already doubled) `cur` into `acm`. -/
def exp_loop (b n : Nat) : Nat → Nat → Nat → Nat → Nat
  | acm, _cur, _i, 0 => acm
  | acm, cur, i, k + 1 =>
    let cur2 := modulus_add cur cur n
    let acm2 := if (b >>> i) &&& 1 = 1 then modulus_add acm cur2 n else acm
    exp_loop b n acm2 cur2 (i + 1) k

/-- `fn modulus_exp(a: u32, b: u32, n: NonZeroU32) -> u32`.  `n == 1` gives 0;
`b == 0` gives 1; otherwise the loop above runs for
`bits = u32::BITS - b.leading_zeros()` iterations, which for `b != 0` is the
bit length of `b`, i.e. `Nat.size b`. -/
def modulus_exp (a b n : Nat) : Nat :=
  if n = 1 then 0
  else if b = 0 then 1
  else exp_loop b n 0 a 0 (Nat.size b)

/-- Outcome of the `while rem != 0` loop in `fn multiplicative_inverse`:
either the final Bezout coefficient `val` (an `i64`), or the early
`Err(NoMultiplicativeInverse)` return. -/
inductive LoopResult where
  | ok : Int → LoopResult
  | err : ModularArithmeticError → LoopResult
deriving DecidableEq, Repr

/-- The loop of `fn multiplicative_inverse`, state `(cur_n, cur_a, val, pre)`.
`cur_n` and `cur_a` are the successive Euclidean remainders (always
nonnegative in the source, so modeled as `Nat`); `val`/`pre` are the running
`i64` Bezout coefficients.  One unfolding performs: compute
`rem = cur_n % cur_a`; exit returning `val` if `rem == 0`; otherwise update
`(val, pre) = (pre + val * -(cur_n / cur_a), val)` and shift
`(cur_n, cur_a) = (cur_a, rem)`, recompute the remainder and return
`Err(NoMultiplicativeInverse)` if it is 0 while the new `cur_a != 1`.
The `cur_a = 0` guard marks the source's remainder-by-zero abort; it is
unreachable from `multiplicative_inverse`, which checks `a % n != 0` first. -/
def mi_loop (cur_n cur_a : Nat) (val pre : Int) : LoopResult :=
  if hca : cur_a = 0 then LoopResult.ok val
  else if cur_n % cur_a = 0 then LoopResult.ok val
  else if cur_a % (cur_n % cur_a) = 0 ∧ cur_n % cur_a ≠ 1 then
    LoopResult.err ModularArithmeticError.NoMultiplicativeInverse
  else
    mi_loop cur_a (cur_n % cur_a) (pre + val * (-((cur_n / cur_a : Nat) : Int))) val
termination_by cur_a
decreasing_by exact Nat.mod_lt cur_n (Nat.pos_of_ne_zero hca)

/-- Outcome of `fn multiplicative_inverse`, which returns
`Result<NonZeroU32, ModularArithmeticError>` but can also panic. -/
inductive MIResult where
  | ok : Nat → MIResult
  | err : ModularArithmeticError → MIResult
  | panicked : PanicReason → MIResult
deriving DecidableEq, Repr

/-- `fn multiplicative_inverse(a: NonZeroU32, n: NonZeroU32)`: reduce `a` mod
`n`; the loop starts from `cur_n = n`, `cur_a = a % n`, `val = 1`, `pre = 0`
(the source's very first `cur_n % cur_a` aborts when `a % n == 0`).  On loop
exit the coefficient is reduced by `val.rem_euclid(i64::from(n))` — that is
`Int.emod` for a positive modulus — and wrapped into a `NonZeroU32`; the
`u32::try_from` cannot fail (the reduced value lies in `[0, n)`), while the
`NonZeroU32::new(..).expect(..)` aborts when the reduced value is 0. -/
def multiplicative_inverse (a n : Nat) : MIResult :=
  if a % n = 0 then MIResult.panicked PanicReason.remainderByZero
  else
    match mi_loop n (a % n) 1 0 with
    | LoopResult.err e => MIResult.err e
    | LoopResult.ok val =>
      if (Int.emod val (n : Int)).toNat = 0 then
        MIResult.panicked PanicReason.inverseReturnedZero
      else MIResult.ok (Int.emod val (n : Int)).toNat

/-- `fn modulus_div(a: u32, b: NonZeroU32, n: NonZeroU32)`:
`Ok(modulus_mul(a, multiplicative_inverse(b, n)?.get(), n))`. -/
def modulus_div (a b n : Nat) : MIResult :=
  match multiplicative_inverse b n with
  | MIResult.ok i => MIResult.ok (modulus_mul a i n)
  | MIResult.err e => MIResult.err e
  | MIResult.panicked r => MIResult.panicked r

/-- `FieldElement::new(val)`: panics when the modulus is 0, otherwise stores
`val % P`. -/
def FieldElement.new (P : Nat) (v : Nat) : RustVal (FieldElement P) :=
  if P = 0 then RustVal.panicked PanicReason.zeroModulus
  else RustVal.ok ⟨v % P⟩

/-- `impl Add for FieldElement<P>` (`P` is nonzero whenever an element was
built through `new`; the `NonZeroU32::new(P).unwrap()` is not separately
modeled, claims about the operators carry `0 < P`). -/
def FieldElement.add {P : Nat} (a b : FieldElement P) : FieldElement P :=
  ⟨modulus_add a.val b.val P⟩

/-- `impl Sub for FieldElement<P>`. -/
def FieldElement.sub {P : Nat} (a b : FieldElement P) : FieldElement P :=
  ⟨modulus_sub a.val b.val P⟩

/-- `impl Mul for FieldElement<P>`. -/
def FieldElement.mul {P : Nat} (a b : FieldElement P) : FieldElement P :=
  ⟨modulus_mul a.val b.val P⟩

/-- `impl Neg for FieldElement<P>`: `modulus_sub(0, self.val, P)`. -/
def FieldElement.neg {P : Nat} (a : FieldElement P) : FieldElement P :=
  ⟨modulus_sub 0 a.val P⟩

/-- `FieldElement::pow`: `modulus_exp(self.val, rhs.val, P)`. -/
def FieldElement.pow {P : Nat} (a b : FieldElement P) : FieldElement P :=
  ⟨modulus_exp a.val b.val P⟩

/-- `impl Div for FieldElement<P>`: panics on a zero divisor (the `expect`
with message about division by 0) and on `Err(NoMultiplicativeInverse)` (the
`panic!` about the gcd); otherwise wraps the value from `modulus_div`. -/
def FieldElement.div {P : Nat} (a b : FieldElement P) : RustVal (FieldElement P) :=
  if b.val = 0 then RustVal.panicked PanicReason.divisionByZero
  else
    match modulus_div a.val b.val P with
    | MIResult.ok v => RustVal.ok ⟨v⟩
    | MIResult.err ModularArithmeticError.NoMultiplicativeInverse =>
      RustVal.panicked PanicReason.noInverseGcd
    | MIResult.panicked r => RustVal.panicked r

/-- `enum CurvePoint<const A: u32, const B: u32, const P: u32>` from
`src/ec/mod.rs`: `Zero` (the point at infinity) or an affine
`Point { x, y }`.  `A` and `B` are phantom parameters exactly as in the
source, whose `Add`/`Sub` never consult them. -/
inductive CurvePoint (A B P : Nat) where
  | Zero
  | Point (x y : FieldElement P)
deriving DecidableEq, Repr

/-- `impl Add for CurvePoint<A, B, P>`: `Zero` is neutral on either side; two
affine points with equal `x` collapse to `Zero`; otherwise the secant slope
`s = (y1 - y2) / (x1 - x2)` (whose field division can panic) gives
`x3 = s*s - x1 - x2` and `y3 = y1 + s * (x2 - x1)`. -/
def CurvePoint.add {A B P : Nat} :
    CurvePoint A B P → CurvePoint A B P → RustVal (CurvePoint A B P)
  | CurvePoint.Zero, rhs => RustVal.ok rhs
  | CurvePoint.Point x1 y1, CurvePoint.Zero => RustVal.ok (CurvePoint.Point x1 y1)
  | CurvePoint.Point x1 y1, CurvePoint.Point x2 y2 =>
    if x1 = x2 then RustVal.ok CurvePoint.Zero
    else
      match FieldElement.div (FieldElement.sub y1 y2) (FieldElement.sub x1 x2) with
      | RustVal.panicked r => RustVal.panicked r
      | RustVal.ok s =>
        RustVal.ok (CurvePoint.Point
          (FieldElement.sub (FieldElement.sub (FieldElement.mul s s) x1) x2)
          (FieldElement.add y1 (FieldElement.mul s (FieldElement.sub x2 x1))))

/-- `impl Sub for CurvePoint<A, B, P>`: subtracting `Zero` is the identity;
otherwise add the negated point `Point { x, y: -y }`. -/
def CurvePoint.sub {A B P : Nat} (p q : CurvePoint A B P) : RustVal (CurvePoint A B P) :=
  match q with
  | CurvePoint.Zero => RustVal.ok p
  | CurvePoint.Point x y => CurvePoint.add p (CurvePoint.Point x (FieldElement.neg y))

/-- Membership in the curve `y ^ 2 = x ^ 3 + A * x + B` over `Z mod P`, the
equation stated by the specification for `CurvePoint` (the source never
checks it; this predicate only states claims about closure). -/
def onCurveAffine (A B P x y : Nat) : Prop :=
  (y * y) % P = (x * x * x + A * x + B) % P

instance (A B P x y : Nat) : Decidable (onCurveAffine A B P x y) := by
  unfold onCurveAffine; infer_instance

/-- `modulus_add` with the source's `u64` intermediate and `u32::try_from`
range check modeled explicitly: the sum wraps at `2 ^ 64` and the conversion
back to `u32` fails (an `expect`, i.e. a panic) when the reduced value
exceeds `u32::MAX = 2 ^ 32 - 1`. -/
def modulus_add_checked (a b n : Nat) : RustVal Nat :=
  let t := (a + b) % 2 ^ 64
  let r := t % n
  if r ≤ 2 ^ 32 - 1 then RustVal.ok r else RustVal.panicked PanicReason.overflowAdd

/-- `modulus_mul` with the `u64` intermediate and range check modeled
explicitly, as for `modulus_add_checked`. -/
def modulus_mul_checked (a b n : Nat) : RustVal Nat :=
  let t := (a * b) % 2 ^ 64
  let r := t % n
  if r ≤ 2 ^ 32 - 1 then RustVal.ok r else RustVal.panicked PanicReason.overflowMul

/-! ## Basic range lemmas for the modular helpers -/

theorem modulus_add_lt (a b n : Nat) (hn : 0 < n) : modulus_add a b n < n :=
  Nat.mod_lt _ hn

theorem modulus_sub_lt (a b n : Nat) (hn : 0 < n) : modulus_sub a b n < n := by
  unfold modulus_sub
  split
  · exact Nat.mod_lt _ hn
  · exact modulus_add_lt _ _ _ hn

theorem modulus_mul_lt (a b n : Nat) (hn : 0 < n) : modulus_mul a b n < n :=
  Nat.mod_lt _ hn

theorem exp_loop_lt (b n : Nat) (hn : 0 < n) :
    ∀ k acm cur i, acm < n → exp_loop b n acm cur i k < n := by
  intro k
  induction k with
  | zero => intro acm cur i h; simpa [exp_loop] using h
  | succ k ih =>
    intro acm cur i h
    simp only [exp_loop]
    split
    · exact ih _ _ _ (modulus_add_lt _ _ _ hn)
    · exact ih _ _ _ h

theorem modulus_exp_lt (a b n : Nat) (hn : 0 < n) : modulus_exp a b n < n := by
  unfold modulus_exp
  split
  · omega
  · split
    · omega
    · exact exp_loop_lt b n hn _ _ _ _ hn

theorem modulus_div_ok_lt (a b n v : Nat) (hn : 0 < n)
    (h : modulus_div a b n = MIResult.ok v) : v < n := by
  unfold modulus_div at h
  cases hmi : multiplicative_inverse b n with
  | ok i =>
    rw [hmi] at h
    cases h
    exact modulus_mul_lt _ _ _ hn
  | err e => rw [hmi] at h; cases h
  | panicked r => rw [hmi] at h; cases h

/-! ## Claim C2: error reporting of the division operator -/

/-- C2 counterexample: the claim says `DivisionByZero` is reported to the
caller of the division operator as an explicit, inspectable error value and
never by aborting; but at the concrete input `3 / 0` in the field mod 5 the
`Div` impl panics (the `expect` whose message is about division by 0), so the
claim is false. -/
theorem div_by_zero_panics_cex :
    FieldElement.div (P := 5) ⟨3⟩ ⟨0⟩ = RustVal.panicked PanicReason.divisionByZero := rfl

/-- C2 (amended): both per-operation arithmetic failures of the division
operator abort (panic) instead of being returned as error values: a zero
divisor hits the `expect("division by 0")`, and a divisor whose inverse
computation reports `NoMultiplicativeInverse` hits the
`panic!("gcd(a,n) != 1")`.  Only the internal `modulus_div` layer reports
`NoMultiplicativeInverse` as an inspectable error value. -/
theorem fe_div_failures_panic {P : Nat} (a b : FieldElement P) :
    (b.val = 0 → FieldElement.div a b = RustVal.panicked PanicReason.divisionByZero) ∧
    (modulus_div a.val b.val P = MIResult.err ModularArithmeticError.NoMultiplicativeInverse →
      FieldElement.div a b = RustVal.panicked PanicReason.noInverseGcd) := by
  constructor
  · intro h0
    simp [FieldElement.div, h0]
  · intro herr
    by_cases h0 : b.val = 0
    · exfalso
      rw [h0] at herr
      simp [modulus_div, multiplicative_inverse] at herr
    · simp [FieldElement.div, h0, herr]

/-- C2 witness: in the field mod 6, dividing by the non-invertible element 4
makes the operator panic with the gcd message (the internal layer did report
`NoMultiplicativeInverse` as a value, but the operator converts it into an
abort). -/
theorem fe_div_failures_panic_witness :
    FieldElement.div (P := 6) ⟨1⟩ ⟨4⟩ = RustVal.panicked PanicReason.noInverseGcd := by
  refine (fe_div_failures_panic (P := 6) ⟨1⟩ ⟨4⟩).2 ?_
  simp [modulus_div, multiplicative_inverse, mi_loop]

/-! ## Claim C3: detection of non-invertible divisors -/

/-- C3: the claim says division by a nonzero `b` fails with
`NoMultiplicativeInverse` exactly when `gcd(b, P) != 1`, in particular when
`b` divides `P`.  But when `b` divides `P` the Euclidean loop exits before its
non-coprime check ever runs: `multiplicative_inverse(2, 4)` returns `Ok(1)`
even though `gcd(2, 4) = 2`, and division by 2 in the (malformed) field mod 4
therefore succeeds with an incorrect result (`1 / 2 = 1`, yet `2 * 1 mod 4`
is not 1). -/
theorem multiplicative_inverse_misses_common_factor :
    multiplicative_inverse 2 4 = MIResult.ok 1 ∧
    Nat.gcd 2 4 = 2 ∧
    FieldElement.div (P := 4) ⟨1⟩ ⟨2⟩ = RustVal.ok ⟨1⟩ ∧
    (2 * 1) % 4 ≠ 1 := by
  refine ⟨?_, by decide, ?_, by decide⟩
  · simp [multiplicative_inverse, mi_loop]; decide
  · simp [FieldElement.div, modulus_div, multiplicative_inverse, mi_loop, modulus_mul]; decide

/-! ## Claim C4: closure of secant-case point addition -/

/-- C4: the claim says the secant-case sum of two distinct on-curve points
with different x-coordinates again satisfies the curve equation.  On the
curve `y^2 = x^3 + x + 1` over `Z mod 5`, the points `(0, 1)` and `(4, 2)`
are both on the curve, but the code's sum `(2, 2)` is not: the `Add` impl
computes the result's y-coordinate as `y1 + s * (x2 - x1)`, which collapses
to `y2` instead of the chord construction's `s * (x1 - x3) - y1`. -/
theorem cp_add_secant_not_closed :
    onCurveAffine 1 1 5 0 1 ∧
    onCurveAffine 1 1 5 4 2 ∧
    CurvePoint.add (A := 1) (B := 1) (P := 5) (CurvePoint.Point ⟨0⟩ ⟨1⟩)
      (CurvePoint.Point ⟨4⟩ ⟨2⟩) = RustVal.ok (CurvePoint.Point ⟨2⟩ ⟨2⟩) ∧
    ¬ onCurveAffine 1 1 5 2 2 := by
  refine ⟨by decide, by decide, ?_, by decide⟩
  simp [CurvePoint.add, FieldElement.div, FieldElement.sub, FieldElement.mul, FieldElement.add,
    modulus_div, multiplicative_inverse, mi_loop, modulus_mul, modulus_sub, modulus_add,
    additive_inverse]
  decide

/-! ## Claim C7: equal x-coordinates always give the identity -/

/-- C7: any two affine points sharing an x-coordinate sum to the point at
infinity, unconditionally in `y1` and `y2` (same point, inverse point, or
otherwise); the `Add` impl returns `Zero` before any slope computation, so no
tangent-line doubling is ever performed. -/
theorem cp_add_equal_x_zero {A B P : Nat} (x1 y1 x2 y2 : FieldElement P)
    (hx : x1 = x2) :
    CurvePoint.add (A := A) (B := B) (CurvePoint.Point x1 y1) (CurvePoint.Point x2 y2)
      = RustVal.ok CurvePoint.Zero := by
  simp [CurvePoint.add, hx]

/-- C7 witness: the same-x points `(0, 1)` and `(0, 4)` of the curve mod 5
(which are each other's negatives) sum to the identity. -/
theorem cp_add_equal_x_zero_witness :
    CurvePoint.add (A := 1) (B := 1) (P := 5) (CurvePoint.Point ⟨0⟩ ⟨1⟩)
      (CurvePoint.Point ⟨0⟩ ⟨4⟩) = RustVal.ok CurvePoint.Zero :=
  cp_add_equal_x_zero ⟨0⟩ ⟨1⟩ ⟨0⟩ ⟨4⟩ rfl

/-! ## Claim C9: overflow safety of addition and multiplication -/

/-- C9: for canonically reduced operands of a field whose modulus fits in
`u32`, the `u64` intermediates of `modulus_add` and `modulus_mul` hold the
exact sum and product (no wrap at `2 ^ 64`), and the reduced result fits back
into `u32`, so the `expect`-guarded conversion branches are unreachable and
the checked operations agree with the total `Nat` model. -/
theorem modulus_add_mul_no_overflow (P : Nat) (hP : 0 < P) (h32 : P ≤ 2 ^ 32 - 1)
    (a b : FieldElement P) (ha : a.val < P) (hb : b.val < P) :
    modulus_add_checked a.val b.val P = RustVal.ok (modulus_add a.val b.val P) ∧
    modulus_mul_checked a.val b.val P = RustVal.ok (modulus_mul a.val b.val P) ∧
    (a.val + b.val) % 2 ^ 64 = a.val + b.val ∧
    (a.val * b.val) % 2 ^ 64 = a.val * b.val := by
  have hsum : a.val + b.val < 2 ^ 64 := by omega
  have hmul : a.val * b.val < 2 ^ 64 := by
    calc a.val * b.val < P * P := by
          exact Nat.mul_lt_mul_of_lt_of_le ha (Nat.le_of_lt hb) hP
      _ ≤ (2 ^ 32 - 1) * (2 ^ 32 - 1) := Nat.mul_le_mul h32 h32
      _ < 2 ^ 64 := by norm_num
  have hra : (a.val + b.val) % P < P := Nat.mod_lt _ hP
  have hrm : (a.val * b.val) % P < P := Nat.mod_lt _ hP
  refine ⟨?_, ?_, Nat.mod_eq_of_lt hsum, Nat.mod_eq_of_lt hmul⟩
  · simp only [modulus_add_checked, modulus_add, Nat.mod_eq_of_lt hsum]
    rw [if_pos (by omega)]
  · simp only [modulus_mul_checked, modulus_mul, Nat.mod_eq_of_lt hmul]
    rw [if_pos (by omega)]

/-- C9 witness: concrete check in the field mod 5 with operands 3 and 4. -/
theorem modulus_add_mul_no_overflow_witness :
    modulus_add_checked 3 4 5 = RustVal.ok (modulus_add 3 4 5) ∧
    modulus_mul_checked 3 4 5 = RustVal.ok (modulus_mul 3 4 5) := by
  have h := modulus_add_mul_no_overflow 5 (by norm_num) (by norm_num)
    ⟨3⟩ ⟨4⟩ (by norm_num) (by norm_num)
  exact ⟨h.1, h.2.1⟩

/-! ## Claim C8: the canonical-reduction invariant -/

/-- C8: for a positive modulus, construction stores exactly `v mod P` (which
lies in `[0, P)`), and every field operation — add, sub, mul, neg, pow, and
div whenever it returns a value — again produces a stored value in `[0, P)`,
so the canonical-reduction invariant is preserved by every operation. -/
theorem fe_ops_preserve_canonical (P : Nat) (hP : 0 < P) (v : Nat)
    (a b : FieldElement P) :
    (FieldElement.new P v = RustVal.ok ⟨v % P⟩ ∧ v % P < P) ∧
    (FieldElement.add a b).val < P ∧
    (FieldElement.sub a b).val < P ∧
    (FieldElement.mul a b).val < P ∧
    (FieldElement.neg a).val < P ∧
    (FieldElement.pow a b).val < P ∧
    ∀ c, FieldElement.div a b = RustVal.ok c → c.val < P := by
  refine ⟨⟨?_, Nat.mod_lt _ hP⟩, modulus_add_lt a.val b.val P hP,
    modulus_sub_lt a.val b.val P hP, modulus_mul_lt a.val b.val P hP,
    modulus_sub_lt 0 a.val P hP, modulus_exp_lt a.val b.val P hP, ?_⟩
  · simp [FieldElement.new, Nat.pos_iff_ne_zero.mp hP]
  · intro c hc
    unfold FieldElement.div at hc
    by_cases h0 : b.val = 0
    · rw [if_pos h0] at hc; cases hc
    · rw [if_neg h0] at hc
      cases hdiv : modulus_div a.val b.val P with
      | ok w =>
        rw [hdiv] at hc
        cases hc
        exact modulus_div_ok_lt _ _ _ _ hP hdiv
      | err e => rw [hdiv] at hc; cases e; cases hc
      | panicked r => rw [hdiv] at hc; cases hc

/-- C8 witness: concrete instance mod 5 with `v = 7`, `a = 3`, `b = 4`
(construction yields `7 mod 5 = 2` and all operation results stay below 5). -/
theorem fe_ops_preserve_canonical_witness :
    (FieldElement.new 5 7 = RustVal.ok ⟨7 % 5⟩ ∧ 7 % 5 < 5) ∧
    (FieldElement.add (P := 5) ⟨3⟩ ⟨4⟩).val < 5 ∧
    (FieldElement.sub (P := 5) ⟨3⟩ ⟨4⟩).val < 5 ∧
    (FieldElement.mul (P := 5) ⟨3⟩ ⟨4⟩).val < 5 ∧
    (FieldElement.neg (P := 5) ⟨3⟩).val < 5 ∧
    (FieldElement.pow (P := 5) ⟨3⟩ ⟨4⟩).val < 5 ∧
    ∀ c, FieldElement.div (P := 5) ⟨3⟩ ⟨4⟩ = RustVal.ok c → c.val < 5 :=
  fe_ops_preserve_canonical 5 (by norm_num) 7 ⟨3⟩ ⟨4⟩

/-! ## Claim C1: what `pow` actually computes -/

theorem mod_two_pow_succ (m k : Nat) : m % 2 ^ (k + 1) = m % 2 + 2 * (m / 2 % 2 ^ k) := by
  have h2 : (0 : Nat) < 2 ^ k := Nat.pos_pow_of_pos k (by norm_num)
  have hx : m / 2 % 2 ^ k < 2 ^ k := Nat.mod_lt _ h2
  have hr : m % 2 < 2 := Nat.mod_lt _ (by norm_num)
  conv_lhs => rw [← Nat.div_add_mod m 2, pow_succ, Nat.mul_comm (2 ^ k) 2]
  rw [Nat.add_mod, Nat.mul_mod_mul_left, Nat.mod_eq_of_lt (a := m % 2) (by omega),
    Nat.mod_eq_of_lt (by omega)]
  omega

/-- Loop invariant of `modulus_exp`: after the remaining `k` iterations
starting at bit `i`, the accumulator has absorbed `2 * cur` once for every
set bit among the next `k` bits of `b` — each addend having been doubled
before the bit test, hence the factor 2. -/
theorem exp_loop_modeq (b n : Nat) :
    ∀ k acm cur i,
      exp_loop b n acm cur i k ≡ acm + b >>> i % 2 ^ k * (2 * cur) [MOD n] := by
  intro k
  induction k with
  | zero =>
    intro acm cur i
    show acm ≡ acm + b >>> i % 2 ^ 0 * (2 * cur) [MOD n]
    simp only [pow_zero, Nat.mod_one, Nat.zero_mul, Nat.add_zero]
    exact Nat.ModEq.refl acm
  | succ k ih =>
    intro acm cur i
    have hsucc : b >>> (i + 1) = b >>> i / 2 := Nat.shiftRight_succ b i
    have hcur2 : modulus_add cur cur n ≡ 2 * cur [MOD n] := by
      simpa [modulus_add, two_mul] using Nat.mod_modEq (cur + cur) n
    simp only [exp_loop]
    by_cases hbit : b >>> i &&& 1 = 1
    · have hb1 : b >>> i % 2 = 1 := by rwa [Nat.and_one_is_mod] at hbit
      rw [if_pos hbit]
      calc exp_loop b n (modulus_add acm (modulus_add cur cur n) n)
            (modulus_add cur cur n) (i + 1) k
          ≡ modulus_add acm (modulus_add cur cur n) n
            + b >>> (i + 1) % 2 ^ k * (2 * modulus_add cur cur n) [MOD n] := ih _ _ _
        _ ≡ acm + 2 * cur + b >>> i / 2 % 2 ^ k * (2 * (2 * cur)) [MOD n] := by
            rw [hsucc]
            exact Nat.ModEq.add
              ((Nat.mod_modEq _ n).trans (Nat.ModEq.add_left acm hcur2))
              (Nat.ModEq.mul_left _ (Nat.ModEq.mul_left 2 hcur2))
        _ = acm + (1 + 2 * (b >>> i / 2 % 2 ^ k)) * (2 * cur) := by ring
        _ = acm + b >>> i % 2 ^ (k + 1) * (2 * cur) := by
            rw [mod_two_pow_succ, hb1]
    · have hb0 : b >>> i % 2 = 0 := by
        rw [Nat.and_one_is_mod] at hbit
        omega
      rw [if_neg hbit]
      calc exp_loop b n acm (modulus_add cur cur n) (i + 1) k
          ≡ acm + b >>> (i + 1) % 2 ^ k * (2 * modulus_add cur cur n) [MOD n] := ih _ _ _
        _ ≡ acm + b >>> i / 2 % 2 ^ k * (2 * (2 * cur)) [MOD n] := by
            rw [hsucc]
            exact Nat.ModEq.add_left acm
              (Nat.ModEq.mul_left _ (Nat.ModEq.mul_left 2 hcur2))
        _ = acm + (0 + 2 * (b >>> i / 2 % 2 ^ k)) * (2 * cur) := by ring
        _ = acm + b >>> i % 2 ^ (k + 1) * (2 * cur) := by
            rw [mod_two_pow_succ, hb0]

/-- C1: the claim says `pow` computes modular exponentiation, hence
`pow(a, 1) = a` and `pow(a, m + n) = pow(a, m) * pow(a, n)`.  In fact for any
nonzero exponent `b` and modulus `n > 1`, `modulus_exp(a, b, n)` equals
`(2 * a * b) mod n`: the loop doubles `cur` before testing bit 0 and
accumulates with modular addition instead of multiplication.  In particular
`pow(a, 1) = 2a mod n`, refuting `pow(a, 1) = a` (e.g. `pow(1, 1) = 2` mod
5), and the exponent-addition law fails as well. -/
theorem modulus_exp_is_double_mul (a b n : Nat) (hb : b ≠ 0) (hn : 1 < n) :
    modulus_exp a b n = 2 * a * b % n := by
  have hn0 : 0 < n := by omega
  unfold modulus_exp
  rw [if_neg (by omega), if_neg hb]
  have h := exp_loop_modeq b n (Nat.size b) 0 a 0
  rw [Nat.shiftRight_zero, Nat.mod_eq_of_lt (Nat.lt_size_self b), Nat.zero_add] at h
  have hlt := exp_loop_lt b n hn0 (Nat.size b) 0 a 0 hn0
  have h2 : exp_loop b n 0 a 0 (Nat.size b) % n = b * (2 * a) % n := h
  rw [Nat.mod_eq_of_lt hlt] at h2
  rw [h2, show b * (2 * a) = 2 * a * b by ring]

/-- C1 witness: at the failing input `a = 1`, `e = 1` in the field mod 5,
`pow` returns `2 * 1 * 1 mod 5 = 2`, not `1^1 = 1`. -/
theorem modulus_exp_is_double_mul_witness :
    FieldElement.pow (P := 5) ⟨1⟩ ⟨1⟩ = ⟨2 * 1 * 1 % 5⟩ ∧ 2 * 1 * 1 % 5 ≠ 1 := by
  constructor
  · show (⟨modulus_exp 1 1 5⟩ : FieldElement 5) = ⟨2 * 1 * 1 % 5⟩
    rw [modulus_exp_is_double_mul 1 1 5 (by norm_num) (by norm_num)]
  · decide

/-! ## Claim C5: extended-Euclid correctness for coprime inputs -/

/-- Invariant of the extended-Euclid loop: the running coefficients satisfy
`val * a ≡ cur_a` and `pre * a ≡ cur_n (mod n)` and the pair
`(cur_n, cur_a)` keeps the gcd of the original inputs.  When that gcd is 1
the loop cannot take its `NoMultiplicativeInverse` exit, and the returned
coefficient is a Bezout coefficient of `a`. -/
theorem mi_loop_bezout (a n : Nat) :
    ∀ cur_a cur_n : Nat, ∀ val pre : Int,
      0 < cur_a →
      Nat.gcd cur_n cur_a = 1 →
      Int.ModEq (n : Int) (val * (a : Int)) ((cur_a : Nat) : Int) →
      Int.ModEq (n : Int) (pre * (a : Int)) ((cur_n : Nat) : Int) →
      ∃ v : Int, mi_loop cur_n cur_a val pre = LoopResult.ok v ∧
        Int.ModEq (n : Int) (v * (a : Int)) 1 := by
  intro cur_a
  induction cur_a using Nat.strong_induction_on with
  | _ cur_a ih =>
    intro cur_n val pre hpos hgcd hval hpre
    rw [mi_loop]
    rw [dif_neg (Nat.pos_iff_ne_zero.mp hpos)]
    by_cases hrem : cur_n % cur_a = 0
    · rw [if_pos hrem]
      have hdvd : cur_a ∣ cur_n := Nat.dvd_of_mod_eq_zero hrem
      have hone : cur_a = 1 := by
        have h1 : Nat.gcd cur_a cur_n = cur_a := Nat.gcd_eq_left hdvd
        rw [Nat.gcd_comm] at hgcd
        omega
      refine ⟨val, rfl, ?_⟩
      rw [hone] at hval
      simpa using hval
    · rw [if_neg hrem]
      have hgcd2 : Nat.gcd cur_a (cur_n % cur_a) = 1 := by
        have h1 : Nat.gcd cur_a cur_n = Nat.gcd (cur_n % cur_a) cur_a := Nat.gcd_rec cur_a cur_n
        rw [Nat.gcd_comm] at hgcd
        rw [Nat.gcd_comm cur_a (cur_n % cur_a), ← h1]
        exact hgcd
      have herr : ¬ (cur_a % (cur_n % cur_a) = 0 ∧ cur_n % cur_a ≠ 1) := by
        rintro ⟨h1, h2⟩
        have hdvd2 : (cur_n % cur_a) ∣ cur_a := Nat.dvd_of_mod_eq_zero h1
        have h3 : Nat.gcd (cur_n % cur_a) cur_a = cur_n % cur_a := Nat.gcd_eq_left hdvd2
        rw [Nat.gcd_comm] at hgcd2
        omega
      rw [if_neg herr]
      have hremlt : cur_n % cur_a < cur_a := Nat.mod_lt _ hpos
      have hq : (cur_a : Int) * ((cur_n / cur_a : Nat) : Int) + ((cur_n % cur_a : Nat) : Int)
          = (cur_n : Int) := by
        exact_mod_cast Nat.div_add_mod cur_n cur_a
      have hval2 : Int.ModEq (n : Int)
          ((pre + val * (-((cur_n / cur_a : Nat) : Int))) * (a : Int))
          ((cur_n % cur_a : Nat) : Int) := by
        have hstep : Int.ModEq (n : Int)
            (pre * (a : Int) - ((cur_n / cur_a : Nat) : Int) * (val * (a : Int)))
            ((cur_n : Int) - ((cur_n / cur_a : Nat) : Int) * (cur_a : Int)) :=
          Int.ModEq.sub hpre (Int.ModEq.mul_left _ hval)
        calc (pre + val * (-((cur_n / cur_a : Nat) : Int))) * (a : Int)
            = pre * (a : Int) - ((cur_n / cur_a : Nat) : Int) * (val * (a : Int)) := by ring
          _ ≡ (cur_n : Int) - ((cur_n / cur_a : Nat) : Int) * (cur_a : Int) [ZMOD (n : Int)] :=
              hstep
          _ = ((cur_n % cur_a : Nat) : Int) := by linarith
      exact ih (cur_n % cur_a) hremlt cur_a _ val
        (Nat.pos_of_ne_zero hrem) hgcd2 hval2 hval

/-- Correctness of `multiplicative_inverse` on its honest domain: when the
reduced input is nonzero and coprime to a modulus `n > 1`, the function
returns `Ok(i)` with `i < n` and `a * i ≡ 1 (mod n)`.  In particular neither
panic site fires and the `NoMultiplicativeInverse` exit is not taken. -/
theorem multiplicative_inverse_ok (a n : Nat) (hn : 1 < n) (ha : a % n ≠ 0)
    (hg : Nat.gcd a n = 1) :
    ∃ i, multiplicative_inverse a n = MIResult.ok i ∧ i < n ∧ (a * i) % n = 1 := by
  have hn0 : 0 < n := by omega
  have hpos : 0 < a % n := Nat.pos_of_ne_zero ha
  have hgcd : Nat.gcd n (a % n) = 1 := by
    rw [Nat.gcd_comm, ← Nat.gcd_rec n a, Nat.gcd_comm]
    exact hg
  have hval : Int.ModEq (n : Int) ((1 : Int) * (a : Int)) ((a % n : Nat) : Int) := by
    show (1 * (a : Int)) % n = ((a % n : Nat) : Int) % n
    push_cast
    rw [one_mul, Int.emod_emod_of_dvd _ dvd_rfl]
  have hpre : Int.ModEq (n : Int) ((0 : Int) * (a : Int)) (n : Int) := by
    show (0 * (a : Int)) % n = (n : Int) % n
    simp [Int.emod_self]
  obtain ⟨v, hv, hmod⟩ := mi_loop_bezout a n (a % n) n 1 0 hpos hgcd hval hpre
  have hnz : (n : Int) ≠ 0 := by exact_mod_cast Nat.pos_iff_ne_zero.mp hn0
  have hvn : (0 : Int) ≤ Int.emod v n := Int.emod_nonneg v hnz
  have hrlt : Int.emod v n < n := Int.emod_lt_of_pos v (by exact_mod_cast hn0)
  have hrcast : ((Int.emod v n).toNat : Int) = Int.emod v n := Int.toNat_of_nonneg hvn
  have hrv : Int.ModEq (n : Int) ((Int.emod v n).toNat : Int) v := by
    show ((Int.emod v n).toNat : Int) % n = v % n
    rw [hrcast]
    exact Int.emod_emod_of_dvd v dvd_rfl
  have hrmod : Int.ModEq (n : Int) (((Int.emod v n).toNat : Int) * (a : Int)) 1 :=
    (hrv.mul_right _).trans hmod
  have hone : (1 : Int) % n = 1 := Int.emod_eq_of_lt (by norm_num) (by exact_mod_cast hn)
  have hrne : (Int.emod v n).toNat ≠ 0 := by
    intro h0
    have h1 : ((0 : Int)) % n = 1 % n := by
      have h2 := hrmod
      rw [h0] at h2
      simpa using h2
    rw [Int.zero_emod, hone] at h1
    exact absurd h1 (by norm_num)
  refine ⟨(Int.emod v n).toNat, ?_, ?_, ?_⟩
  · unfold multiplicative_inverse
    rw [if_neg ha, hv]
    show (if (Int.emod v (n : Int)).toNat = 0 then MIResult.panicked PanicReason.inverseReturnedZero
      else MIResult.ok (Int.emod v (n : Int)).toNat) = MIResult.ok (Int.emod v (n : Int)).toNat
    rw [if_neg hrne]
  · exact_mod_cast hrcast ▸ hrlt
  · have h2 : (((Int.emod v n).toNat : Int) * (a : Int)) % (n : Int) = 1 % (n : Int) := hrmod
    rw [hone] at h2
    have h3 : ((a * (Int.emod v n).toNat % n : Nat) : Int) = 1 := by
      rw [Int.natCast_mod]
      push_cast
      rw [mul_comm]
      exact h2
    exact_mod_cast h3

/-- C5: a canonical nonzero element coprime to the modulus divided by itself
gives the element 1 (`field_element(1, P)`), and the extended-Euclid inverse
`i` of its value satisfies `(a * i) mod P = 1`. -/
theorem fe_div_self {P : Nat} (a : FieldElement P) (h0 : a.val ≠ 0)
    (hlt : a.val < P) (hg : Nat.gcd a.val P = 1) :
    FieldElement.div a a = RustVal.ok ⟨1⟩ ∧
    ∃ i, multiplicative_inverse a.val P = MIResult.ok i ∧ (a.val * i) % P = 1 := by
  have hP : 1 < P := lt_of_le_of_lt (Nat.one_le_iff_ne_zero.mpr h0) hlt
  have ha : a.val % P ≠ 0 := by
    rw [Nat.mod_eq_of_lt hlt]
    exact h0
  obtain ⟨i, hi, hilt, hmod⟩ := multiplicative_inverse_ok a.val P hP ha hg
  refine ⟨?_, i, hi, hmod⟩
  unfold FieldElement.div
  rw [if_neg h0]
  have hdiv : modulus_div a.val a.val P = MIResult.ok 1 := by
    unfold modulus_div
    rw [hi]
    simp [modulus_mul, hmod]
  rw [hdiv]

/-- C5 witness: in the field mod 5, `3 / 3 = 1` and the inverse of 3 is a
value `i` with `3 * i ≡ 1 (mod 5)`. -/
theorem fe_div_self_witness :
    FieldElement.div (P := 5) ⟨3⟩ ⟨3⟩ = RustVal.ok ⟨1⟩ ∧
    ∃ i, multiplicative_inverse 3 5 = MIResult.ok i ∧ (3 * i) % 5 = 1 :=
  fe_div_self ⟨3⟩ (by decide) (by decide) (by decide)

/-! ## Congruence lemmas for the modular helpers -/

theorem modulus_add_modeq (a b n : Nat) :
    Int.ModEq (n : Int) ((modulus_add a b n : Nat) : Int) ((a : Int) + b) := by
  show ((modulus_add a b n : Nat) : Int) % n = ((a : Int) + b) % n
  unfold modulus_add
  rw [Int.natCast_mod]
  push_cast
  exact Int.emod_emod_of_dvd _ dvd_rfl

theorem modulus_mul_modeq (a b n : Nat) :
    Int.ModEq (n : Int) ((modulus_mul a b n : Nat) : Int) ((a : Int) * b) := by
  show ((modulus_mul a b n : Nat) : Int) % n = ((a : Int) * b) % n
  unfold modulus_mul
  rw [Int.natCast_mod]
  push_cast
  exact Int.emod_emod_of_dvd _ dvd_rfl

/-- `modulus_sub` computes the integer difference mod `n`: both its branches
(the direct `a - b` one and the one routed through `additive_inverse`) agree
with `a - b` modulo `n`. -/
theorem modulus_sub_modeq (a b n : Nat) (hn : 0 < n) :
    Int.ModEq (n : Int) ((modulus_sub a b n : Nat) : Int) ((a : Int) - b) := by
  unfold modulus_sub
  by_cases h : a > b
  · rw [if_pos h]
    show (((a - b) % n : Nat) : Int) % n = ((a : Int) - b) % n
    rw [Int.natCast_mod, Nat.cast_sub (le_of_lt h)]
    exact Int.emod_emod_of_dvd _ dvd_rfl
  · rw [if_neg h]
    unfold modulus_add additive_inverse
    have hble : b % n ≤ n := le_of_lt (Nat.mod_lt b hn)
    have hmodn : Int.ModEq (n : Int) ((b % n : Nat) : Int) (b : Int) := by
      show ((b % n : Nat) : Int) % n = (b : Int) % n
      rw [Int.natCast_mod]
      exact Int.emod_emod_of_dvd _ dvd_rfl
    have hstep : Int.ModEq (n : Int)
        ((a : Int) + ((n : Int) - ((b % n : Nat) : Int))) ((a : Int) + (0 - (b : Int))) :=
      Int.ModEq.add_left _ (Int.ModEq.sub (by simp [Int.ModEq, Int.emod_self]) hmodn)
    calc (((a + (n - b % n)) % n : Nat) : Int)
        ≡ ((a + (n - b % n) : Nat) : Int) [ZMOD (n : Int)] := by
          show (((a + (n - b % n)) % n : Nat) : Int) % n = ((a + (n - b % n) : Nat) : Int) % n
          rw [Int.natCast_mod]
          exact Int.emod_emod_of_dvd _ dvd_rfl
      _ = (a : Int) + ((n : Int) - ((b % n : Nat) : Int)) := by
          push_cast [Nat.cast_sub hble]
          ring
      _ ≡ (a : Int) + (0 - (b : Int)) [ZMOD (n : Int)] := hstep
      _ = (a : Int) - b := by ring

/-- Two values below the modulus that are congruent are equal. -/
theorem val_eq_of_modeq {P : Nat} (a b : Nat) (ha : a < P) (hb : b < P)
    (h : Int.ModEq (P : Int) (a : Int) (b : Int)) : a = b := by
  have h1 : (a : Int) % P = (b : Int) % P := h
  rw [Int.emod_eq_of_lt (Int.natCast_nonneg a) (by exact_mod_cast ha),
      Int.emod_eq_of_lt (Int.natCast_nonneg b) (by exact_mod_cast hb)] at h1
  exact_mod_cast h1

/-! ## Claim C10: the y-coordinate of a secant-case sum -/

/-- C10 counterexample: the claim says that whenever the slope division
succeeds, the secant sum's y-coordinate equals `y2`.  Over the composite
modulus 4, adding `(3, 1)` and `(1, 0)` makes the division succeed — but with
the bogus inverse 1 of the non-invertible denominator 2 — and the resulting
point `(1, 3)` has y-coordinate `3 ≠ y2 = 0`. -/
theorem cp_add_secant_y_not_y2_cex :
    CurvePoint.add (A := 0) (B := 0) (P := 4) (CurvePoint.Point ⟨3⟩ ⟨1⟩)
      (CurvePoint.Point ⟨1⟩ ⟨0⟩) = RustVal.ok (CurvePoint.Point ⟨1⟩ ⟨3⟩) ∧
    (⟨3⟩ : FieldElement 4) ≠ ⟨0⟩ := by
  refine ⟨?_, by decide⟩
  simp [CurvePoint.add, FieldElement.div, FieldElement.sub, FieldElement.mul, FieldElement.add,
    modulus_div, multiplicative_inverse, mi_loop, modulus_mul, modulus_sub, modulus_add,
    additive_inverse]
  decide

/-- C10 (amended): for affine points with distinct x-coordinates whose
difference is genuinely invertible (`gcd((x1 - x2) mod P, P) = 1`) and with
`y2` canonically reduced, the sum is an affine point whose y-coordinate is
exactly `y2`: in `y1 + s * (x2 - x1)` the factor `s * (x2 - x1)` collapses to
`y2 - y1`. -/
theorem cp_add_secant_y2 {A B P : Nat} (hP : 1 < P)
    (x1 y1 x2 y2 : FieldElement P) (hx : x1 ≠ x2) (hy2 : y2.val < P)
    (hg : Nat.gcd (FieldElement.sub x1 x2).val P = 1) :
    ∃ x3, CurvePoint.add (A := A) (B := B) (CurvePoint.Point x1 y1) (CurvePoint.Point x2 y2)
      = RustVal.ok (CurvePoint.Point x3 y2) := by
  have hP0 : 0 < P := by omega
  have hdlt : (FieldElement.sub x1 x2).val < P := modulus_sub_lt _ _ _ hP0
  have hd0 : (FieldElement.sub x1 x2).val ≠ 0 := by
    intro h
    rw [h, Nat.gcd_zero_left] at hg
    omega
  have hda : (FieldElement.sub x1 x2).val % P ≠ 0 := by
    rw [Nat.mod_eq_of_lt hdlt]
    exact hd0
  obtain ⟨i, hi, hilt, hmod⟩ := multiplicative_inverse_ok (FieldElement.sub x1 x2).val P hP hda hg
  have hdiv : FieldElement.div (FieldElement.sub y1 y2) (FieldElement.sub x1 x2)
      = RustVal.ok ⟨modulus_mul (FieldElement.sub y1 y2).val i P⟩ := by
    unfold FieldElement.div
    rw [if_neg hd0]
    unfold modulus_div
    rw [hi]
  have hdi : Int.ModEq (P : Int) (((FieldElement.sub x1 x2).val : Int) * (i : Int)) 1 := by
    show ((FieldElement.sub x1 x2).val : Int) * (i : Int) % P = 1 % P
    rw [show ((FieldElement.sub x1 x2).val : Int) * (i : Int)
        = (((FieldElement.sub x1 x2).val * i : Nat) : Int) by push_cast; ring,
      ← Int.natCast_mod, hmod, Int.emod_eq_of_lt (by norm_num) (by exact_mod_cast hP)]
    norm_num
  have hyval : (FieldElement.add y1 (FieldElement.mul ⟨modulus_mul (FieldElement.sub y1 y2).val i P⟩
      (FieldElement.sub x2 x1))).val = y2.val := by
    apply val_eq_of_modeq _ _ (modulus_add_lt _ _ _ hP0) hy2
    show Int.ModEq (P : Int)
      ((modulus_add y1.val (modulus_mul (modulus_mul (FieldElement.sub y1 y2).val i P)
        (FieldElement.sub x2 x1).val P) P : Nat) : Int) (y2.val : Int)
    calc ((modulus_add y1.val (modulus_mul (modulus_mul (FieldElement.sub y1 y2).val i P)
          (FieldElement.sub x2 x1).val P) P : Nat) : Int)
        ≡ (y1.val : Int) + ((modulus_mul (modulus_mul (FieldElement.sub y1 y2).val i P)
          (FieldElement.sub x2 x1).val P : Nat) : Int) [ZMOD (P : Int)] :=
          modulus_add_modeq _ _ _
      _ ≡ (y1.val : Int) + ((modulus_mul (FieldElement.sub y1 y2).val i P : Nat) : Int)
          * ((FieldElement.sub x2 x1).val : Int) [ZMOD (P : Int)] :=
          Int.ModEq.add_left _ (modulus_mul_modeq _ _ _)
      _ ≡ (y1.val : Int) + (((FieldElement.sub y1 y2).val : Int) * (i : Int))
          * ((FieldElement.sub x2 x1).val : Int) [ZMOD (P : Int)] :=
          Int.ModEq.add_left _ (Int.ModEq.mul_right _ (modulus_mul_modeq _ _ _))
      _ ≡ (y1.val : Int) + (((y1.val : Int) - y2.val) * (i : Int))
          * (((x2.val : Int) - x1.val)) [ZMOD (P : Int)] :=
          Int.ModEq.add_left _ (Int.ModEq.mul
            (Int.ModEq.mul_right _ (modulus_sub_modeq _ _ _ hP0))
            (modulus_sub_modeq _ _ _ hP0))
      _ = (y1.val : Int) - (((y1.val : Int) - y2.val) * (i : Int))
          * (((x1.val : Int) - x2.val)) := by ring
      _ ≡ (y1.val : Int) - (((y1.val : Int) - y2.val) * (i : Int))
          * (((FieldElement.sub x1 x2).val : Int)) [ZMOD (P : Int)] :=
          Int.ModEq.sub (Int.ModEq.refl _)
            (Int.ModEq.mul_left _ (modulus_sub_modeq x1.val x2.val P hP0).symm)
      _ = (y1.val : Int) - ((y1.val : Int) - y2.val)
          * ((((FieldElement.sub x1 x2).val : Int)) * (i : Int)) := by ring
      _ ≡ (y1.val : Int) - ((y1.val : Int) - y2.val) * 1 [ZMOD (P : Int)] :=
          Int.ModEq.sub (Int.ModEq.refl _) (Int.ModEq.mul_left _ hdi)
      _ = (y2.val : Int) := by ring
  refine ⟨FieldElement.sub (FieldElement.sub (FieldElement.mul
    ⟨modulus_mul (FieldElement.sub y1 y2).val i P⟩
    ⟨modulus_mul (FieldElement.sub y1 y2).val i P⟩) x1) x2, ?_⟩
  show CurvePoint.add _ _ = _
  simp only [CurvePoint.add]
  rw [if_neg hx, hdiv]
  have hyeq2 : FieldElement.add y1 (FieldElement.mul ⟨modulus_mul (FieldElement.sub y1 y2).val i P⟩
      (FieldElement.sub x2 x1)) = y2 := by
    cases hy2e : y2 with
    | mk yv =>
      have hthis := hyval
      rw [hy2e] at hthis
      simp only [FieldElement.add, FieldElement.mul]
      exact congrArg FieldElement.mk hthis
  show RustVal.ok (CurvePoint.Point
      (FieldElement.sub (FieldElement.sub (FieldElement.mul
        (⟨modulus_mul (FieldElement.sub y1 y2).val i P⟩ : FieldElement P)
        ⟨modulus_mul (FieldElement.sub y1 y2).val i P⟩) x1) x2)
      (FieldElement.add y1 (FieldElement.mul ⟨modulus_mul (FieldElement.sub y1 y2).val i P⟩
        (FieldElement.sub x2 x1)))) = _
  rw [hyeq2]

/-- C10 witness: over the field mod 5, `(0, 1) + (4, 2)` lands on a point
whose y-coordinate is exactly `y2 = 2` (here `gcd((0 - 4) mod 5, 5) = 1`). -/
theorem cp_add_secant_y2_witness :
    ∃ x3, CurvePoint.add (A := 1) (B := 1) (P := 5) (CurvePoint.Point ⟨0⟩ ⟨1⟩)
      (CurvePoint.Point ⟨4⟩ ⟨2⟩) = RustVal.ok (CurvePoint.Point x3 ⟨2⟩) :=
  cp_add_secant_y2 (by norm_num) ⟨0⟩ ⟨1⟩ ⟨4⟩ ⟨2⟩ (by decide) (by decide) (by decide)

/-! ## Claim C6: the subtraction round trip -/

/-- Double negation on the y-coordinate is the identity for canonically
reduced values (needed for the identity cases of the round trip). -/
theorem fe_neg_neg {P : Nat} (hP : 0 < P) (y : FieldElement P) (hy : y.val < P) :
    FieldElement.neg (FieldElement.neg y) = y := by
  have h1 : (FieldElement.neg (FieldElement.neg y)).val = y.val := by
    show modulus_sub 0 (FieldElement.neg y).val P = y.val
    apply val_eq_of_modeq _ _ (modulus_sub_lt _ _ _ hP) hy
    show Int.ModEq (P : Int) ((modulus_sub 0 (modulus_sub 0 y.val P) P : Nat) : Int) (y.val : Int)
    calc ((modulus_sub 0 (modulus_sub 0 y.val P) P : Nat) : Int)
        ≡ ((0 : Nat) : Int) - ((modulus_sub 0 y.val P : Nat) : Int) [ZMOD (P : Int)] :=
          modulus_sub_modeq _ _ P hP
      _ ≡ ((0 : Nat) : Int) - (((0 : Nat) : Int) - (y.val : Int)) [ZMOD (P : Int)] :=
          Int.ModEq.sub (Int.ModEq.refl _) (modulus_sub_modeq 0 y.val P hP)
      _ = (y.val : Int) := by push_cast; ring
  cases hy2 : y with
  | mk yv =>
    rw [hy2] at h1
    simp only [FieldElement.neg] at h1 ⊢
    exact congrArg FieldElement.mk h1

/-- C6 counterexample: the claim says `P - (P - Q) = Q` for all curve points
(no slope division even occurs here).  With the on-curve points `P = (0, 1)`
and `Q = (0, 4)` of `y^2 = x^3 + x + 1` mod 5, `P - Q` collapses to the
identity (shared x-coordinate), so `P - (P - Q) = P ≠ Q`. -/
theorem cp_sub_roundtrip_cex :
    RustVal.bind
      (CurvePoint.sub (A := 1) (B := 1) (P := 5) (CurvePoint.Point ⟨0⟩ ⟨1⟩)
        (CurvePoint.Point ⟨0⟩ ⟨4⟩))
      (fun r => CurvePoint.sub (CurvePoint.Point ⟨0⟩ ⟨1⟩) r)
      = RustVal.ok (CurvePoint.Point ⟨0⟩ ⟨1⟩) ∧
    CurvePoint.Point (A := 1) (B := 1) (⟨0⟩ : FieldElement 5) ⟨1⟩ ≠ CurvePoint.Point ⟨0⟩ ⟨4⟩ ∧
    onCurveAffine 1 1 5 0 1 ∧ onCurveAffine 1 1 5 0 4 := by
  refine ⟨by decide, by decide, by decide, by decide⟩

/-- C6 (amended): the round trip `P - (P - Q) = Q` does hold in the identity
cases — whenever `Q` is the identity, or `P` is the identity and `Q` carries a
canonically reduced y-coordinate — but fails in general for two affine
points. -/
theorem cp_sub_roundtrip_identity_cases {A B P : Nat} (hP : 0 < P)
    (p q : CurvePoint A B P)
    (h : q = CurvePoint.Zero ∨
      (p = CurvePoint.Zero ∧ ∀ x y, q = CurvePoint.Point x y → y.val < P)) :
    RustVal.bind (CurvePoint.sub p q) (fun r => CurvePoint.sub p r) = RustVal.ok q := by
  rcases h with hq | ⟨hp, hcan⟩
  · subst hq
    cases p with
    | Zero => rfl
    | Point x y =>
      simp [RustVal.bind, CurvePoint.sub, CurvePoint.add]
  · subst hp
    cases q with
    | Zero => rfl
    | Point x y =>
      have hy := hcan x y rfl
      simp only [CurvePoint.sub, CurvePoint.add, RustVal.bind]
      rw [fe_neg_neg hP y hy]

/-- C6 witness: with `Q` the identity and `P = (1, 2)` mod 5,
`P - (P - Q) = Q`. -/
theorem cp_sub_roundtrip_identity_cases_witness :
    RustVal.bind
      (CurvePoint.sub (A := 1) (B := 1) (P := 5) (CurvePoint.Point ⟨1⟩ ⟨2⟩) CurvePoint.Zero)
      (fun r => CurvePoint.sub (CurvePoint.Point ⟨1⟩ ⟨2⟩) r) = RustVal.ok CurvePoint.Zero :=
  cp_sub_roundtrip_identity_cases (by norm_num) _ _ (Or.inl rfl)
